import Mathlib

/-!
Shallow embedding of the autoblocksai/cli test-orchestration engine
(`src/python-example.py`) together with proofs of the specification claims.

The engine under verification:
  * `run_test` posts `/start`, fans the test cases out under
    `gather_with_max_concurrency`, and posts `/end`;
  * `run_test_case` invokes the function under test, posts `/results` on a
    non-`None` output, and dispatches the evaluators under a nested
    `gather_with_max_concurrency`;
  * `evaluate_output` invokes one evaluator and posts `/evals` or, on a
    thrown exception, `/errors` via `send_error`;
  * `BaseTestCase.cached_hash` memoises the user-supplied `hash()` with
    `functools.cached_property`;
  * `gather_with_max_concurrency` is an `asyncio.Semaphore` wrapped around
    `asyncio.gather(..., return_exceptions=True)`.

Python values that the engine merely forwards are modelled by stand-ins:
outputs and dict values by `String`, floats by `Rat`.  The synchronous and
asynchronous branches of `run_test_case` / `evaluate_output` perform the same
try/except and the same posts, so they are embedded as one function from a
test case to `Except PyErr _`.
-/

set_option maxHeartbeats 1000000

namespace Autoblocks

/-- A Python exception as the engine captures it in `send_error`:
`type(error).__name__`, `str(error)`, `traceback.format_exc()`. -/
structure PyErr where
  name : String
  message : String
  stacktrace : String
deriving DecidableEq

/-- `Threshold` dataclass: four independently optional numeric bounds. -/
structure Threshold where
  lt : Option Rat
  lte : Option Rat
  gt : Option Rat
  gte : Option Rat
deriving DecidableEq

/-- `Evaluation` dataclass: a score plus optional threshold metadata. -/
structure Evaluation where
  score : Rat
  threshold : Option Threshold
deriving DecidableEq

/-- A test case is an opaque caller-defined record; the engine only ever
consumes it through `dataclasses.asdict` (an ordered field/value record) and
through the caller-supplied `hash()` method, which is passed separately as a
pure function (`BaseTestCase.hash` is abstract). -/
structure TestCase where
  fields : List (String × String)
deriving DecidableEq

/-- An evaluator: an immutable string `id` and an `evaluate` operation that
may throw (`Except.error`), may return no verdict (`Except.ok none`,
Python `None`), or may return an `Evaluation`. -/
structure Evaluator where
  id : String
  evaluate : TestCase → String → Except PyErr (Option Evaluation)

/-- One POST to the collector, by path and JSON payload.  `evaluatorExternalId`
in an `/errors` payload is optional; an absent `threshold` in an `/evals`
payload is the `none` case. -/
inductive Event where
  | start (testExternalId : String)
  | results (testExternalId : String) (testCaseHash : String)
      (testCaseBody : List (String × String)) (testCaseOutput : String)
  | evals (testExternalId : String) (evaluatorExternalId : String)
      (testCaseHash : String) (score : Rat) (threshold : Option Threshold)
  | errors (testExternalId : String) (testCaseHash : String)
      (evaluatorExternalId : Option String) (error : PyErr)
  | endRun (testExternalId : String)
deriving DecidableEq

/-- The `testCaseHash` join key carried by an event, if any. -/
def Event.caseHash? : Event → Option String
  | .start _ => none
  | .results _ h _ _ => some h
  | .evals _ _ h _ _ => some h
  | .errors _ h _ _ => some h
  | .endRun _ => none

def Event.isStartEv : Event → Bool
  | .start _ => true
  | _ => false

def Event.isEndEv : Event → Bool
  | .endRun _ => true
  | _ => false

/-- Is this a `/results` event for the given test-case hash? -/
def Event.isResultsFor (h : String) : Event → Bool
  | .results _ h' _ _ => h' == h
  | _ => false

/-- Is this an `/evals` event for the given test-case hash (any evaluator)? -/
def Event.isEvalsFor (h : String) : Event → Bool
  | .evals _ _ h' _ _ => h' == h
  | _ => false

/-- Is this an `/evals` event for the given test-case hash and evaluator id? -/
def Event.isEvalsOf (h : String) (eid : String) : Event → Bool
  | .evals _ eid' h' _ _ => h' == h && eid' == eid
  | _ => false

/-- Is this an `/errors` event for the given test-case hash? -/
def Event.isErrorsFor (h : String) : Event → Bool
  | .errors _ h' _ _ => h' == h
  | _ => false

/-- Is this an `/errors` event for the given test-case hash whose payload
carries the given optional `evaluatorExternalId`? -/
def Event.isErrorsOf (h : String) (eid : Option String) : Event → Bool
  | .errors _ h' eid' _ => h' == h && eid' == eid
  | _ => false

/-- Does the event mention the given test-case hash at all? -/
def Event.mentions (h : String) : Event → Bool :=
  fun e => e.caseHash? == some h

/-- The per-instance state of `functools.cached_property` for `cached_hash`,
keyed by the test case's position in the run's list, together with a count of
how many times the underlying `hash()` method has actually been invoked. -/
structure EngineState where
  cache : Nat → Option String
  hashCalls : Nat → Nat

def initState : EngineState := ⟨fun _ => none, fun _ => 0⟩

/-- `BaseTestCase.cached_hash`: on first access invoke the user `hash()`
(here the pure function `hashOf`) and store the result; afterwards return the
stored string without recomputing. -/
def cachedHash (hashOf : TestCase → String) (tc : TestCase) (i : Nat)
    (st : EngineState) : String × EngineState :=
  match st.cache i with
  | some h => (h, st)
  | none =>
      let h := hashOf tc
      (h, ⟨Function.update st.cache i (some h),
           Function.update st.hashCalls i (st.hashCalls i + 1)⟩)

/-- `send_error`: builds the `/errors` payload; `evaluatorExternalId` is
included only when `evaluator_id` is truthy (`if evaluator_id:`), so both
`None` and the empty string are omitted. -/
def sendError (testId : String) (tcHash : String) (evaluatorId : Option String)
    (err : PyErr) : Event :=
  Event.errors testId tcHash
    (match evaluatorId with
     | none => none
     | some s => if s = "" then none else some s) err

/-- `asyncio.Semaphore(value)` raises `ValueError` exactly when `value < 0`
(CPython: "Semaphore initial value must be >= 0"); this is the only
validation `gather_with_max_concurrency` performs on its limit. -/
def semaphoreInit (value : Int) : Except PyErr Unit :=
  if value < 0 then
    .error ⟨"ValueError", "Semaphore initial value must be >= 0", ""⟩
  else .ok ()

/-- Outcome of one fanned-out unit as seen by the enclosing
`asyncio.gather(..., return_exceptions=True)`: it finished, it raised (the
exception is captured by the gather and discarded), or it never completes. -/
inductive UnitOutcome where
  | done
  | raised (e : PyErr)
  | hung
deriving DecidableEq

/-- The environment's behaviour for one `client.post`: `none` means the POST
succeeds, `some e` means `httpx` raises `e` out of the `await`. -/
def PostBehavior : Type := Event → Option PyErr

/-- The collector accepts every post. -/
def noFail : PostBehavior := fun _ => none

/-- `evaluate_output`: invoke one evaluator on the test case's output.  On a
thrown exception, `send_error` posts `/errors` tagged with the evaluator id;
on `None` (no verdict) nothing is posted; otherwise `/evals` is posted with
the score and the optional threshold.  The returned list is the posts this
unit attempts, in order.  A failed post raises out of this coroutine and is
captured by the surrounding gather; no further work follows the post inside
this function, so the attempts and the state do not depend on post failures. -/
def evaluateOutput (hashOf : TestCase → String) (testId : String)
    (tc : TestCase) (i : Nat) (output : String) (e : Evaluator)
    (st : EngineState) : List Event × EngineState :=
  match e.evaluate tc output with
  | .error err =>
      let r := cachedHash hashOf tc i st
      ([sendError testId r.1 (some e.id) err], r.2)
  | .ok none => ([], st)
  | .ok (some ev) =>
      let r := cachedHash hashOf tc i st
      ([Event.evals testId e.id r.1 ev.score ev.threshold], r.2)

/-- The evaluator fan-out of `run_test_case`: every evaluator coroutine runs
(under the evaluator-level gate) and the gather collects all of them;
concatenation order stands for one completion order, and the interleaving
layer below quantifies over the others at the test-case level. -/
def runEvaluators (hashOf : TestCase → String) (testId : String)
    (tc : TestCase) (i : Nat) (output : String) :
    List Evaluator → EngineState → List Event × EngineState
  | [], st => ([], st)
  | e :: es, st =>
      let r := evaluateOutput hashOf testId tc i output e st
      let rest := runEvaluators hashOf testId tc i output es r.2
      (r.1 ++ rest.1, rest.2)

/-- `run_test_case` for the test case at position `i`: invoke `fn`; on a
thrown exception post `/errors` with `evaluator_id=None` and return; on a
`None` output return silently; otherwise post `/results` with the
`asdict` body minus the `batch_idx` key and fan out the evaluators under
`gather_with_max_concurrency maxEval`.  A failed `/results` post raises
before the evaluators start; a negative evaluator limit raises `ValueError`
from the semaphore constructor; a zero evaluator limit with a non-empty
evaluator list never admits a unit, so the case never completes. -/
def runTestCase (post : PostBehavior) (hashOf : TestCase → String)
    (testId : String) (tc : TestCase) (i : Nat) (evaluators : List Evaluator)
    (fn : TestCase → Except PyErr (Option String)) (maxEval : Int)
    (st : EngineState) : List Event × EngineState × UnitOutcome :=
  match fn tc with
  | .error err =>
      let r := cachedHash hashOf tc i st
      let ev := sendError testId r.1 none err
      match post ev with
      | some pe => ([ev], r.2, .raised pe)
      | none => ([ev], r.2, .done)
  | .ok none => ([], st, .done)
  | .ok (some output) =>
      let r := cachedHash hashOf tc i st
      let body := tc.fields.filter fun p => p.1 != "batch_idx"
      let resEv := Event.results testId r.1 body output
      match post resEv with
      | some pe => ([resEv], r.2, .raised pe)
      | none =>
          match semaphoreInit maxEval with
          | .error e => ([resEv], r.2, .raised e)
          | .ok _ =>
              if maxEval = 0 ∧ evaluators.isEmpty = false then ([resEv], r.2, .hung)
              else
                let evs := runEvaluators hashOf testId tc i output evaluators r.2
                (resEv :: evs.1, evs.2, .done)

/-- The test-case fan-out of `run_test`: every case's coroutine runs to its
own outcome; `gather(..., return_exceptions=True)` swallows raised units but
never returns while some unit is still pending, so a hung unit hangs the
whole gather.  Returns the per-case attempt traces, the final cache state and
whether any unit hung. -/
def runCases (post : PostBehavior) (hashOf : TestCase → String)
    (testId : String) (evaluators : List Evaluator)
    (fn : TestCase → Except PyErr (Option String)) (maxEval : Int) :
    List TestCase → Nat → EngineState → List (List Event) × EngineState × Bool
  | [], _, st => ([], st, false)
  | tc :: rest, i, st =>
      let r := runTestCase post hashOf testId tc i evaluators fn maxEval st
      let rr := runCases post hashOf testId evaluators fn maxEval rest (i + 1) r.2.1
      (r.1 :: rr.1, rr.2.1, (r.2.2 == .hung) || rr.2.2)

/-- How a call of the blocking entry point `test(...)` ends for the caller:
`future.result()` returns normally, re-raises an exception that escaped
`run_test`, or never returns. -/
inductive RunOutcome where
  | completes
  | raises (e : PyErr)
  | hangs
deriving DecidableEq

/-- The observable result of one run: the run-level posts attempted before
the fan-out (`/start`), the per-test-case attempt traces, the run-level posts
attempted after the barrier (`/end`), the final cache state, and how the
caller's blocking call ends. -/
structure RunResult where
  preEvents : List Event
  caseTraces : List (List Event)
  postEvents : List Event
  st : EngineState
  outcome : RunOutcome

/-- `run_test` followed by `future.result()` in `test(...)`: post `/start`
(a failure there propagates to the caller before any case runs), build the
test-case gate (a negative limit raises `ValueError` here, after `/start`;
a zero limit with test cases pending never admits any, so the run hangs),
run the fan-out, and after the barrier post `/end` (a failure there also
propagates to the caller). -/
def runTest (post : PostBehavior) (hashOf : TestCase → String)
    (testId : String) (tcs : List TestCase) (evaluators : List Evaluator)
    (fn : TestCase → Except PyErr (Option String)) (maxTC maxEval : Int) :
    RunResult :=
  let startEv := Event.start testId
  match post startEv with
  | some e => ⟨[startEv], [], [], initState, .raises e⟩
  | none =>
      match semaphoreInit maxTC with
      | .error e => ⟨[startEv], [], [], initState, .raises e⟩
      | .ok _ =>
          if maxTC = 0 ∧ tcs.isEmpty = false then ⟨[startEv], [], [], initState, .hangs⟩
          else
            let r := runCases post hashOf testId evaluators fn maxEval tcs 0 initState
            if r.2.2 then ⟨[startEv], r.1, [], r.2.1, .hangs⟩
            else
              let endEv := Event.endRun testId
              match post endEv with
              | some e => ⟨[startEv], r.1, [endEv], r.2.1, .raises e⟩
              | none => ⟨[startEv], r.1, [endEv], r.2.1, .completes⟩

/-- Shuffle product of two lists: all merges that keep each list's internal
order — the possible serialisations of two concurrent event streams. -/
inductive Shuffle : List Event → List Event → List Event → Prop
  | nil : Shuffle [] [] []
  | left {x xs ys zs} : Shuffle xs ys zs → Shuffle (x :: xs) ys (x :: zs)
  | right {y xs ys zs} : Shuffle xs ys zs → Shuffle xs (y :: ys) (y :: zs)

/-- All serialisations of a finite family of concurrent event streams. -/
inductive InterleaveN : List (List Event) → List Event → Prop
  | nil : InterleaveN [] []
  | cons {l ls rest out} : Shuffle l rest out → InterleaveN ls rest →
      InterleaveN (l :: ls) out

/-- The possible collector-observed traces of one run: the pre-fan-out posts,
then any interleaving of the per-test-case streams, then the post-barrier
posts. -/
def RunTraces (post : PostBehavior) (hashOf : TestCase → String)
    (testId : String) (tcs : List TestCase) (evaluators : List Evaluator)
    (fn : TestCase → Except PyErr (Option String)) (maxTC maxEval : Int)
    (tr : List Event) : Prop :=
  let r := runTest post hashOf testId tcs evaluators fn maxTC maxEval
  ∃ mid, InterleaveN r.caseTraces mid ∧ tr = r.preEvents ++ mid ++ r.postEvents

/-!
A small-step model of `gather_with_max_concurrency` itself: an
`asyncio.Semaphore(limit)` wrapped around a batch of units.  A unit is a pair
`(index, remaining steps)`.  `pending` holds the units still waiting on
`semaphore.acquire()` in submission order (the semaphore wakes waiters in
FIFO order); `running` holds the units currently inside the `async with`
block; `finished` holds the indices of completed units.
-/

/-- Instantaneous state of one `gather_with_max_concurrency` call. -/
structure GateState where
  pending : List (Nat × Nat)
  running : List (Nat × Nat)
  finished : List Nat
deriving DecidableEq

/-- The gate applied to a batch of units, the `i`-th needing `units[i]`
scheduler steps; all slots free, nothing admitted yet. -/
def initGate (units : List Nat) : GateState := ⟨units.enum, [], []⟩

/-- One scheduler step of the gate: admit the longest-waiting unit when a
slot is free (`acquire` succeeds only while fewer than `limit` units hold the
semaphore), advance any running unit, or retire a running unit that has no
work left (releasing its slot). -/
inductive GateStep (limit : Nat) : GateState → GateState → Prop
  | acquire (u : Nat × Nat) (rest running : List (Nat × Nat)) (finished : List Nat) :
      running.length < limit →
      GateStep limit ⟨u :: rest, running, finished⟩ ⟨rest, running ++ [u], finished⟩
  | workStep (pending pre post : List (Nat × Nat)) (i n : Nat) (finished : List Nat) :
      GateStep limit ⟨pending, pre ++ (i, n + 1) :: post, finished⟩
        ⟨pending, pre ++ (i, n) :: post, finished⟩
  | retire (pending pre post : List (Nat × Nat)) (i : Nat) (finished : List Nat) :
      GateStep limit ⟨pending, pre ++ (i, 0) :: post, finished⟩
        ⟨pending, pre ++ post, finished ++ [i]⟩

/-- Reachability from the gate's initial state. -/
def GateReach (limit : Nat) (units : List Nat) (s : GateState) : Prop :=
  Relation.ReflTransGen (GateStep limit) (initGate units) s

/-- Termination measure: pending units weigh their work plus two, running
units their work plus one; every step strictly decreases it. -/
def gateMeasure (s : GateState) : Nat :=
  (s.pending.map fun u => u.2 + 2).sum + (s.running.map fun u => u.2 + 1).sum

/-- The multiset of unit indices still tracked anywhere in the gate. -/
def gateIds (s : GateState) : Multiset Nat :=
  (s.pending.map Prod.fst : Multiset Nat) + (s.running.map Prod.fst : Multiset Nat)
    + (s.finished : Multiset Nat)

theorem GateStep.measure_lt {limit : Nat} {s s' : GateState}
    (h : GateStep limit s s') : gateMeasure s' < gateMeasure s := by
  cases h with
  | acquire u rest running finished hlt =>
      simp only [gateMeasure, List.map_append, List.sum_append, List.map_cons,
        List.sum_cons, List.map_nil, List.sum_nil]
      omega
  | workStep pending pre post i n finished =>
      simp only [gateMeasure, List.map_append, List.sum_append, List.map_cons,
        List.sum_cons]
      omega
  | retire pending pre post i finished =>
      simp only [gateMeasure, List.map_append, List.sum_append, List.map_cons,
        List.sum_cons]
      omega

theorem GateStep.ids_eq {limit : Nat} {s s' : GateState}
    (h : GateStep limit s s') : gateIds s' = gateIds s := by
  cases h with
  | acquire u rest running finished hlt =>
      simp only [gateIds, List.map_append, List.map_cons, List.map_nil,
        ← Multiset.coe_add, ← Multiset.cons_coe, ← Multiset.singleton_add,
        Multiset.coe_nil]
      abel
  | workStep pending pre post i n finished =>
      simp [gateIds, List.map_append, List.map_cons]
  | retire pending pre post i finished =>
      simp only [gateIds, List.map_append, List.map_cons, List.map_nil,
        ← Multiset.coe_add, ← Multiset.cons_coe, ← Multiset.singleton_add,
        Multiset.coe_nil]
      abel

theorem gateReach_inv {limit : Nat} {units : List Nat} {s : GateState}
    (h : GateReach limit units s) :
    s.running.length ≤ limit ∧ gateIds s = gateIds (initGate units) := by
  induction h with
  | refl => simp [initGate]
  | tail _ hstep ih =>
      refine ⟨?_, hstep.ids_eq.trans ih.2⟩
      cases hstep with
      | acquire u rest running finished hlt =>
          simpa using hlt
      | workStep pending pre post i n finished =>
          simpa using ih.1
      | retire pending pre post i finished =>
          have := ih.1
          simp only [List.length_append, List.length_cons] at this ⊢
          omega

theorem gate_progress {limit : Nat} (hpos : 0 < limit) (s : GateState)
    (hne : s.pending ≠ [] ∨ s.running ≠ []) : ∃ s', GateStep limit s s' := by
  obtain ⟨p, r, f⟩ := s
  match r with
  | (i, n + 1) :: rest => exact ⟨_, GateStep.workStep p [] rest i n f⟩
  | (i, 0) :: rest => exact ⟨_, GateStep.retire p [] rest i f⟩
  | [] =>
      match p with
      | u :: rest => exact ⟨_, GateStep.acquire u rest [] f (by simpa using hpos)⟩
      | [] => simp at hne

theorem gate_chain_le {limit : Nat} (f : Nat → GateState) (n : Nat)
    (hstep : ∀ k, k < n → GateStep limit (f k) (f (k + 1))) :
    n ≤ gateMeasure (f 0) := by
  have key : ∀ k, k ≤ n → gateMeasure (f k) + k ≤ gateMeasure (f 0) := by
    intro k
    induction k with
    | zero => simp
    | succ k ih =>
        intro hk
        have h1 := ih (by omega)
        have h2 := (hstep k (by omega)).measure_lt
        omega
  have := key n le_rfl
  omega

theorem gate_terminal_drained {limit : Nat} (hpos : 0 < limit) (s : GateState)
    (hterm : ∀ s', ¬ GateStep limit s s') : s.pending = [] ∧ s.running = [] := by
  by_contra hc
  have hne : s.pending ≠ [] ∨ s.running ≠ [] := by tauto
  obtain ⟨s', h⟩ := gate_progress hpos s hne
  exact hterm s' h

theorem gate_terminal_finished {limit : Nat} {units : List Nat} {s : GateState}
    (hpos : 0 < limit) (hreach : GateReach limit units s)
    (hterm : ∀ s', ¬ GateStep limit s s') :
    s.finished.Perm (List.range units.length) := by
  obtain ⟨hp, hr⟩ := gate_terminal_drained hpos s hterm
  have hids := (gateReach_inv hreach).2
  rw [← Multiset.coe_eq_coe]
  have : gateIds s = (s.finished : Multiset Nat) := by
    simp [gateIds, hp, hr]
  rw [← this, hids]
  simp [gateIds, initGate, List.enum_map_fst]

theorem Shuffle.countP_add {l r out : List Event} (p : Event → Bool)
    (h : Shuffle l r out) : out.countP p = l.countP p + r.countP p := by
  induction h with
  | nil => simp
  | left h ih =>
      simp only [List.countP_cons, ih]
      omega
  | right h ih =>
      simp only [List.countP_cons, ih]
      omega

theorem Shuffle.mem_or {l r out : List Event} (h : Shuffle l r out) {x : Event} :
    x ∈ out ↔ x ∈ l ∨ x ∈ r := by
  induction h with
  | nil => simp
  | left h ih => simp [ih]; tauto
  | right h ih => simp [ih]; tauto

theorem InterleaveN.countP_sum {ls : List (List Event)} {out : List Event}
    (p : Event → Bool) (h : InterleaveN ls out) :
    out.countP p = (ls.map (List.countP p)).sum := by
  induction h with
  | nil => simp
  | cons hs _ ih => simp [hs.countP_add p, ih]

theorem InterleaveN.mem_exists {ls : List (List Event)} {out : List Event}
    (h : InterleaveN ls out) {x : Event} : x ∈ out ↔ ∃ l ∈ ls, x ∈ l := by
  induction h with
  | nil => simp
  | cons hs _ ih =>
      rw [hs.mem_or, ih]
      simp

theorem shuffle_nil_left (r : List Event) : Shuffle [] r r := by
  induction r with
  | nil => exact .nil
  | cons y ys ih => exact .right ih

theorem shuffle_append (l r : List Event) : Shuffle l r (l ++ r) := by
  induction l with
  | nil => simpa using shuffle_nil_left r
  | cons x xs ih => exact .left ih

theorem interleaveN_flatten (ls : List (List Event)) : InterleaveN ls ls.flatten := by
  induction ls with
  | nil => exact .nil
  | cons l ls ih => exact .cons (by simpa using shuffle_append l ls.flatten) ih

theorem sum_map_single {α : Type} (l : List α) (f : α → Nat) (i : Nat)
    (hi : i < l.length)
    (h0 : ∀ j, (hj : j < l.length) → j ≠ i → f (l.get ⟨j, hj⟩) = 0) :
    (l.map f).sum = f (l.get ⟨i, hi⟩) := by
  induction l generalizing i with
  | nil => simp at hi
  | cons x xs ih =>
      cases i with
      | zero =>
          simp only [List.map_cons, List.sum_cons, List.get]
          have hz : (xs.map f).sum = 0 := by
            apply List.sum_eq_zero
            intro a ha
            obtain ⟨b, hb, rfl⟩ := List.mem_map.mp ha
            obtain ⟨⟨j, hj⟩, rfl⟩ := List.mem_iff_get.mp hb
            exact h0 (j + 1) (by simpa using hj) (by omega)
          omega
      | succ i =>
          simp only [List.map_cons, List.sum_cons, List.get]
          have hx : f x = 0 := h0 0 (by simp) (by omega)
          rw [hx, ih i (by simpa using hi)
            (fun j hj hne => h0 (j + 1) (by simpa using hj) (by omega))]
          omega

theorem nodup_map_get_ne {α β : Type} {l : List α} {f : α → β}
    (h : (l.map f).Nodup) {i j : Nat} (hi : i < l.length) (hj : j < l.length)
    (hij : i ≠ j) : f (l.get ⟨i, hi⟩) ≠ f (l.get ⟨j, hj⟩) := by
  intro he
  have hi' : i < (l.map f).length := by simpa
  have hj' : j < (l.map f).length := by simpa
  have h2 := (@List.Nodup.getElem_inj_iff _ _ h i hi' j hj').mp
  simp only [List.getElem_map] at h2
  apply hij
  apply h2
  simpa [List.get_eq_getElem] using he

theorem cachedHash_some {hashOf : TestCase → String} {tc : TestCase} {i : Nat}
    {st : EngineState} {s : String} (h : st.cache i = some s) :
    cachedHash hashOf tc i st = (s, st) := by
  simp [cachedHash, h]

theorem cachedHash_none {hashOf : TestCase → String} {tc : TestCase} {i : Nat}
    {st : EngineState} (h : st.cache i = none) :
    cachedHash hashOf tc i st =
      (hashOf tc, ⟨Function.update st.cache i (some (hashOf tc)),
        Function.update st.hashCalls i (st.hashCalls i + 1)⟩) := by
  simp [cachedHash, h]

/-- The posts one evaluator contributes for a test case whose cached hash is
`h`: the derived closed form of `evaluate_output`. -/
def evaluatorEvent (testId : String) (tc : TestCase) (h : String)
    (output : String) (e : Evaluator) : List Event :=
  match e.evaluate tc output with
  | .error err => [sendError testId h (some e.id) err]
  | .ok none => []
  | .ok (some ev) => [Event.evals testId e.id h ev.score ev.threshold]

/-- The posts `run_test_case` makes for one test case when every post
succeeds and the evaluator gate is valid: the derived closed form proved
equal to `runTestCase` below. -/
def caseEventsSpec (hashOf : TestCase → String) (testId : String)
    (tc : TestCase) (evaluators : List Evaluator)
    (fn : TestCase → Except PyErr (Option String)) : List Event :=
  match fn tc with
  | .error err => [sendError testId (hashOf tc) none err]
  | .ok none => []
  | .ok (some output) =>
      Event.results testId (hashOf tc)
          (tc.fields.filter fun p => p.1 != "batch_idx") output
        :: (evaluators.map (evaluatorEvent testId tc (hashOf tc) output)).flatten

/-- The cache state after one test case: the slot is filled exactly when the
case accessed `cached_hash` at all (that is, unless `fn` returned `None`). -/
def stateAfterCase (hashOf : TestCase → String) (tc : TestCase) (i : Nat)
    (st : EngineState) (fn : TestCase → Except PyErr (Option String)) :
    EngineState :=
  match fn tc with
  | .ok none => st
  | _ => ⟨Function.update st.cache i (some (hashOf tc)),
      Function.update st.hashCalls i (st.hashCalls i + 1)⟩

theorem runEvaluators_cached {hashOf : TestCase → String} {testId : String}
    {tc : TestCase} {i : Nat} {output : String} {st : EngineState} (h : String)
    (hc : st.cache i = some h) (es : List Evaluator) :
    runEvaluators hashOf testId tc i output es st =
      ((es.map (evaluatorEvent testId tc h output)).flatten, st) := by
  induction es with
  | nil => simp [runEvaluators]
  | cons e es ih =>
      simp only [runEvaluators, evaluateOutput, evaluatorEvent, List.map_cons,
        List.flatten_cons]
      cases hev : e.evaluate tc output with
      | error err => simp [cachedHash_some hc, ih]
      | ok o => cases o <;> simp [cachedHash_some hc, ih]

theorem runTestCase_noFail {hashOf : TestCase → String} {testId : String}
    {tc : TestCase} {i : Nat} {evaluators : List Evaluator}
    {fn : TestCase → Except PyErr (Option String)} {maxEval : Int}
    {st : EngineState} (hEv : 1 ≤ maxEval) (hc : st.cache i = none) :
    runTestCase noFail hashOf testId tc i evaluators fn maxEval st =
      (caseEventsSpec hashOf testId tc evaluators fn,
       stateAfterCase hashOf tc i st fn, .done) := by
  cases hfn : fn tc with
  | error err =>
      simp [runTestCase, caseEventsSpec, stateAfterCase, hfn,
        cachedHash_none hc, noFail]
  | ok o =>
      cases o with
      | none => simp [runTestCase, caseEventsSpec, stateAfterCase, hfn]
      | some output =>
          have hsem : semaphoreInit maxEval = .ok () := by
            simp only [semaphoreInit, if_neg (by omega : ¬ maxEval < 0)]
          have hne : ¬ maxEval = 0 := by omega
          simp only [runTestCase, caseEventsSpec, stateAfterCase, hfn,
            cachedHash_none hc, noFail, hsem, hne, false_and, if_false]
          rw [runEvaluators_cached (hashOf tc) (by simp) evaluators]

theorem stateAfterCase_cache_other {hashOf : TestCase → String} {tc : TestCase}
    {i : Nat} {st : EngineState} {fn : TestCase → Except PyErr (Option String)}
    {j : Nat} (hj : j ≠ i) :
    (stateAfterCase hashOf tc i st fn).cache j = st.cache j := by
  unfold stateAfterCase
  cases hfn : fn tc with
  | error e => simp [Function.update_noteq hj]
  | ok o =>
      cases o with
      | none => rfl
      | some s => simp [Function.update_noteq hj]

theorem stateAfterCase_hashCalls_other {hashOf : TestCase → String}
    {tc : TestCase} {i : Nat} {st : EngineState}
    {fn : TestCase → Except PyErr (Option String)} {j : Nat} (hj : j ≠ i) :
    (stateAfterCase hashOf tc i st fn).hashCalls j = st.hashCalls j := by
  unfold stateAfterCase
  cases hfn : fn tc with
  | error e => simp [Function.update_noteq hj]
  | ok o =>
      cases o with
      | none => rfl
      | some s => simp [Function.update_noteq hj]

theorem stateAfterCase_hashCalls_self {hashOf : TestCase → String}
    {tc : TestCase} {i : Nat} {st : EngineState}
    {fn : TestCase → Except PyErr (Option String)} :
    (stateAfterCase hashOf tc i st fn).hashCalls i ≤ st.hashCalls i + 1 := by
  unfold stateAfterCase
  cases hfn : fn tc with
  | error e => simp
  | ok o =>
      cases o with
      | none =>
          simp only []
          omega
      | some s => simp

theorem runCases_noFail {hashOf : TestCase → String} {testId : String}
    {evaluators : List Evaluator}
    {fn : TestCase → Except PyErr (Option String)} {maxEval : Int}
    (hEv : 1 ≤ maxEval) :
    ∀ (tcs : List TestCase) (k : Nat) (st : EngineState),
      (∀ j, k ≤ j → st.cache j = none) →
      ∃ st', runCases noFail hashOf testId evaluators fn maxEval tcs k st =
          (tcs.map fun tc => caseEventsSpec hashOf testId tc evaluators fn,
           st', false) ∧
        (∀ j, j < k → st'.cache j = st.cache j ∧
          st'.hashCalls j = st.hashCalls j) ∧
        (∀ j, k ≤ j → st'.hashCalls j ≤ st.hashCalls j + 1) := by
  intro tcs
  induction tcs with
  | nil =>
      intro k st hfresh
      exact ⟨st, by simp [runCases], fun j _ => ⟨rfl, rfl⟩, fun j _ => by omega⟩
  | cons tc rest ih =>
      intro k st hfresh
      have h1 := @runTestCase_noFail hashOf testId tc k evaluators fn maxEval st
        hEv (hfresh k le_rfl)
      have hfresh1 : ∀ j, k + 1 ≤ j →
          (stateAfterCase hashOf tc k st fn).cache j = none := by
        intro j hj
        rw [stateAfterCase_cache_other (by omega)]
        exact hfresh j (by omega)
      obtain ⟨st', heq, hpres, hgrow⟩ :=
        ih (k + 1) (stateAfterCase hashOf tc k st fn) hfresh1
      refine ⟨st', ?_, ?_, ?_⟩
      · simp only [runCases, h1, heq]
        simp
      · intro j hj
        have hp := hpres j (by omega)
        rw [stateAfterCase_cache_other (show j ≠ k by omega),
          stateAfterCase_hashCalls_other (show j ≠ k by omega)] at hp
        exact hp
      · intro j hj
        by_cases hjk : j = k
        · subst hjk
          have hp := (hpres j (by omega)).2
          rw [hp]
          exact stateAfterCase_hashCalls_self
        · have hg := hgrow j (by omega)
          rwa [stateAfterCase_hashCalls_other hjk] at hg

theorem runTest_noFail {hashOf : TestCase → String} {testId : String}
    {tcs : List TestCase} {evaluators : List Evaluator}
    {fn : TestCase → Except PyErr (Option String)} {maxTC maxEval : Int}
    (h1 : 1 ≤ maxTC) (h2 : 1 ≤ maxEval) :
    ∃ st', runTest noFail hashOf testId tcs evaluators fn maxTC maxEval =
        ⟨[Event.start testId],
         tcs.map fun tc => caseEventsSpec hashOf testId tc evaluators fn,
         [Event.endRun testId], st', .completes⟩ ∧
      ∀ j, st'.hashCalls j ≤ 1 := by
  obtain ⟨st', heq, _, hgrow⟩ :=
    @runCases_noFail hashOf testId evaluators fn maxEval h2 tcs 0 initState
      (fun j _ => rfl)
  refine ⟨st', ?_, ?_⟩
  · have hsem : semaphoreInit maxTC = .ok () := by
      simp only [semaphoreInit, if_neg (by omega : ¬ maxTC < 0)]
    have hne : ¬ maxTC = 0 := by omega
    simp only [runTest, noFail, hsem, hne, false_and, if_false, heq]
    simp
  · intro j
    simpa [initState] using hgrow j (by omega)

theorem runTraces_noFail_shape {hashOf : TestCase → String} {testId : String}
    {tcs : List TestCase} {evaluators : List Evaluator}
    {fn : TestCase → Except PyErr (Option String)} {maxTC maxEval : Int}
    {tr : List Event} (h1 : 1 ≤ maxTC) (h2 : 1 ≤ maxEval)
    (htr : RunTraces noFail hashOf testId tcs evaluators fn maxTC maxEval tr) :
    ∃ mid, InterleaveN
        (tcs.map fun tc => caseEventsSpec hashOf testId tc evaluators fn) mid ∧
      tr = Event.start testId :: (mid ++ [Event.endRun testId]) := by
  obtain ⟨st', heq, _⟩ :=
    @runTest_noFail hashOf testId tcs evaluators fn maxTC maxEval h1 h2
  obtain ⟨mid, hil, htreq⟩ := htr
  rw [heq] at hil htreq
  exact ⟨mid, hil, by simpa using htreq⟩

theorem runTraces_noFail_countP {hashOf : TestCase → String} {testId : String}
    {tcs : List TestCase} {evaluators : List Evaluator}
    {fn : TestCase → Except PyErr (Option String)} {maxTC maxEval : Int}
    {tr : List Event} (h1 : 1 ≤ maxTC) (h2 : 1 ≤ maxEval)
    (htr : RunTraces noFail hashOf testId tcs evaluators fn maxTC maxEval tr)
    (p : Event → Bool) :
    tr.countP p = (if p (Event.start testId) then 1 else 0)
      + (tcs.map fun tc =>
          (caseEventsSpec hashOf testId tc evaluators fn).countP p).sum
      + (if p (Event.endRun testId) then 1 else 0) := by
  obtain ⟨mid, hil, rfl⟩ := runTraces_noFail_shape h1 h2 htr
  rw [List.countP_cons, List.countP_append, List.countP_cons, List.countP_nil,
    hil.countP_sum p, List.map_map]
  simp only [Function.comp_def]
  omega

theorem sendError_caseHash (testId h : String) (eid : Option String)
    (err : PyErr) : (sendError testId h eid err).caseHash? = some h := rfl

theorem evaluatorEvent_hash {testId : String} {tc : TestCase} {h output : String}
    {e : Evaluator} : ∀ ev ∈ evaluatorEvent testId tc h output e,
      ev.caseHash? = some h := by
  intro ev hev
  unfold evaluatorEvent at hev
  cases he : e.evaluate tc output with
  | error err =>
      rw [he] at hev
      simp at hev
      subst hev
      rfl
  | ok o =>
      rw [he] at hev
      cases o with
      | none => simp at hev
      | some x =>
          simp at hev
          subst hev
          rfl

theorem caseEventsSpec_hash {hashOf : TestCase → String} {testId : String}
    {tc : TestCase} {evaluators : List Evaluator}
    {fn : TestCase → Except PyErr (Option String)} :
    ∀ ev ∈ caseEventsSpec hashOf testId tc evaluators fn,
      ev.caseHash? = some (hashOf tc) := by
  intro ev hev
  unfold caseEventsSpec at hev
  cases hfn : fn tc with
  | error err =>
      rw [hfn] at hev
      simp at hev
      subst hev
      rfl
  | ok o =>
      rw [hfn] at hev
      cases o with
      | none => simp at hev
      | some output =>
          simp only [List.mem_cons, List.mem_flatten, List.mem_map] at hev
          rcases hev with rfl | ⟨l, ⟨e, he, rfl⟩, hev⟩
          · rfl
          · exact evaluatorEvent_hash ev hev

theorem caseHash_not_startEnd {ev : Event} {h : String}
    (hh : ev.caseHash? = some h) : ev.isStartEv = false ∧ ev.isEndEv = false := by
  cases ev <;> simp_all [Event.caseHash?, Event.isStartEv, Event.isEndEv]

theorem isResultsFor_hash {h : String} {ev : Event}
    (hp : Event.isResultsFor h ev = true) : ev.caseHash? = some h := by
  cases ev <;> simp_all [Event.isResultsFor, Event.caseHash?]

theorem isEvalsFor_hash {h : String} {ev : Event}
    (hp : Event.isEvalsFor h ev = true) : ev.caseHash? = some h := by
  cases ev <;> simp_all [Event.isEvalsFor, Event.caseHash?]

theorem isErrorsFor_hash {h : String} {ev : Event}
    (hp : Event.isErrorsFor h ev = true) : ev.caseHash? = some h := by
  cases ev <;> simp_all [Event.isErrorsFor, Event.caseHash?]

theorem isEvalsOf_hash {h eid : String} {ev : Event}
    (hp : Event.isEvalsOf h eid ev = true) : ev.caseHash? = some h := by
  cases ev <;> simp_all [Event.isEvalsOf, Event.caseHash?]

theorem isErrorsOf_hash {h : String} {eid : Option String} {ev : Event}
    (hp : Event.isErrorsOf h eid ev = true) : ev.caseHash? = some h := by
  cases ev <;> simp_all [Event.isErrorsOf, Event.caseHash?]

theorem mentions_hash {h : String} {ev : Event}
    (hp : Event.mentions h ev = true) : ev.caseHash? = some h := by
  simp_all [Event.mentions]

theorem countP_caseEventsSpec_zero {hashOf : TestCase → String}
    {testId : String} {tc : TestCase} {evaluators : List Evaluator}
    {fn : TestCase → Except PyErr (Option String)} {p : Event → Bool}
    {h : String} (hp : ∀ ev, p ev = true → ev.caseHash? = some h)
    (hne : hashOf tc ≠ h) :
    (caseEventsSpec hashOf testId tc evaluators fn).countP p = 0 := by
  rw [List.countP_eq_zero]
  intro ev hev hpt
  have h1 := caseEventsSpec_hash ev hev
  have h2 := hp ev hpt
  rw [h1] at h2
  exact hne (by simpa using h2)

theorem sum_map_zero {α : Type} (l : List α) (f : α → Nat)
    (h : ∀ x ∈ l, f x = 0) : (l.map f).sum = 0 := by
  apply List.sum_eq_zero
  intro a ha
  obtain ⟨b, hb, rfl⟩ := List.mem_map.mp ha
  exact h b hb

theorem caseEventsSpec_countP_start_zero {hashOf : TestCase → String}
    {testId : String} {tc : TestCase} {evaluators : List Evaluator}
    {fn : TestCase → Except PyErr (Option String)} :
    (caseEventsSpec hashOf testId tc evaluators fn).countP Event.isStartEv = 0 := by
  rw [List.countP_eq_zero]
  intro a ha
  simp [(caseHash_not_startEnd (caseEventsSpec_hash a ha)).1]

theorem caseEventsSpec_countP_end_zero {hashOf : TestCase → String}
    {testId : String} {tc : TestCase} {evaluators : List Evaluator}
    {fn : TestCase → Except PyErr (Option String)} :
    (caseEventsSpec hashOf testId tc evaluators fn).countP Event.isEndEv = 0 := by
  rw [List.countP_eq_zero]
  intro a ha
  simp [(caseHash_not_startEnd (caseEventsSpec_hash a ha)).2]

theorem runTraces_countP_end {hashOf : TestCase → String} {testId : String}
    {tcs : List TestCase} {evaluators : List Evaluator}
    {fn : TestCase → Except PyErr (Option String)} {maxTC maxEval : Int}
    {tr : List Event} (h1 : 1 ≤ maxTC) (h2 : 1 ≤ maxEval)
    (htr : RunTraces noFail hashOf testId tcs evaluators fn maxTC maxEval tr) :
    tr.countP Event.isEndEv = 1 := by
  rw [runTraces_noFail_countP h1 h2 htr Event.isEndEv,
    sum_map_zero _ _ (fun tc _ => caseEventsSpec_countP_end_zero)]
  simp [Event.isEndEv]

/-- Any predicate that forces the `testCaseHash` of test case `i` counts, over
any trace of a (valid-limit, reliable-collector) run with injective hashes,
exactly what test case `i`'s own event list contributes. -/
theorem runTraces_countP_hashBound {hashOf : TestCase → String}
    {testId : String} {tcs : List TestCase} {evaluators : List Evaluator}
    {fn : TestCase → Except PyErr (Option String)} {maxTC maxEval : Int}
    {tr : List Event} (h1 : 1 ≤ maxTC) (h2 : 1 ≤ maxEval)
    (htr : RunTraces noFail hashOf testId tcs evaluators fn maxTC maxEval tr)
    (p : Event → Bool) {i : Nat} (hi : i < tcs.length)
    (hp : ∀ ev, p ev = true → ev.caseHash? = some (hashOf (tcs.get ⟨i, hi⟩)))
    (hnd : (tcs.map hashOf).Nodup) :
    tr.countP p =
      (caseEventsSpec hashOf testId (tcs.get ⟨i, hi⟩) evaluators fn).countP p := by
  have hstart : p (Event.start testId) = false := by
    cases hps : p (Event.start testId)
    · rfl
    · exact absurd (hp _ hps) (by simp [Event.caseHash?])
  have hend : p (Event.endRun testId) = false := by
    cases hps : p (Event.endRun testId)
    · rfl
    · exact absurd (hp _ hps) (by simp [Event.caseHash?])
  rw [runTraces_noFail_countP h1 h2 htr p,
    sum_map_single tcs _ i hi (fun j hj hne =>
      countP_caseEventsSpec_zero hp (nodup_map_get_ne hnd hj hi hne))]
  simp [hstart, hend]

/-- **C1**: for every run (with valid concurrency limits, over any
interleaving of the fanned-out test-case units), the `/start` event is
reported exactly once and strictly before every `/results`, `/evals` and
`/errors` event of the run, and the `/end` event is reported exactly once and
strictly after all of them: every trace is `/start`, then only per-test-case
events, then `/end` — `/end` is posted only after the fan-out barrier, i.e.
after every test-case unit and its nested evaluator units have finished. -/
theorem run_start_end_bracket {hashOf : TestCase → String} {testId : String}
    {tcs : List TestCase} {evaluators : List Evaluator}
    {fn : TestCase → Except PyErr (Option String)} {maxTC maxEval : Int}
    {tr : List Event} (h1 : 1 ≤ maxTC) (h2 : 1 ≤ maxEval)
    (htr : RunTraces noFail hashOf testId tcs evaluators fn maxTC maxEval tr) :
    tr.countP Event.isStartEv = 1 ∧ tr.countP Event.isEndEv = 1 ∧
      ∃ mid, tr = Event.start testId :: (mid ++ [Event.endRun testId]) ∧
        ∀ ev ∈ mid, ev.isStartEv = false ∧ ev.isEndEv = false := by
  obtain ⟨mid, hil, rfl⟩ := runTraces_noFail_shape h1 h2 htr
  have hmid : ∀ ev ∈ mid, ev.isStartEv = false ∧ ev.isEndEv = false := by
    intro ev hev
    obtain ⟨l, hl, hevl⟩ := hil.mem_exists.mp hev
    obtain ⟨tc, _, rfl⟩ := List.mem_map.mp hl
    exact caseHash_not_startEnd (caseEventsSpec_hash ev hevl)
  have hzs : mid.countP Event.isStartEv = 0 :=
    List.countP_eq_zero.mpr fun a ha => by simp [(hmid a ha).1]
  have hze : mid.countP Event.isEndEv = 0 :=
    List.countP_eq_zero.mpr fun a ha => by simp [(hmid a ha).2]
  refine ⟨?_, ?_, mid, rfl, hmid⟩
  · rw [List.countP_cons, List.countP_append, List.countP_cons, List.countP_nil,
      hzs]
    simp [Event.isStartEv]
  · rw [List.countP_cons, List.countP_append, List.countP_cons, List.countP_nil,
      hze]
    simp [Event.isStartEv, Event.isEndEv]

theorem run_start_end_bracket_witness :
    ([Event.start "t", Event.endRun "t"] : List Event).countP Event.isStartEv = 1 ∧
    ([Event.start "t", Event.endRun "t"] : List Event).countP Event.isEndEv = 1 ∧
    ∃ mid, ([Event.start "t", Event.endRun "t"] : List Event) =
        Event.start "t" :: (mid ++ [Event.endRun "t"]) ∧
      ∀ ev ∈ mid, ev.isStartEv = false ∧ ev.isEndEv = false :=
  @run_start_end_bracket (fun _ => "h") "t" [] [] (fun _ => Except.ok none) 1 1
    [Event.start "t", Event.endRun "t"] (by decide) (by decide)
    ⟨[], InterleaveN.nil, rfl⟩

/-- **C7**: for every run of the bounded concurrency gate with limit `k ≥ 1`
over any batch of units: (i) at no reachable instant are more than `k` units
executing concurrently; (ii) while any unit is pending or running the gate
can always take a step, and (iii) every execution is finite (bounded by the
measure of the initial state), so no unit starves; (iv) the gate is stuck —
i.e. `gather` returns — only in states where nothing is pending or running
and every submitted unit has finished. -/
theorem gate_bounded_no_starvation (limit : Nat) (units : List Nat)
    (hpos : 0 < limit) :
    (∀ s, GateReach limit units s → s.running.length ≤ limit) ∧
    (∀ s, GateReach limit units s → (s.pending ≠ [] ∨ s.running ≠ []) →
      ∃ s', GateStep limit s s') ∧
    (∀ (f : Nat → GateState) (n : Nat),
      (∀ k, k < n → GateStep limit (f k) (f (k + 1))) →
      n ≤ gateMeasure (f 0)) ∧
    (∀ s, GateReach limit units s → (∀ s', ¬ GateStep limit s s') →
      s.pending = [] ∧ s.running = [] ∧
        s.finished.Perm (List.range units.length)) := by
  refine ⟨fun s hs => (gateReach_inv hs).1,
    fun s _ hne => gate_progress hpos s hne,
    fun f n hf => gate_chain_le f n hf,
    fun s hs hterm => ?_⟩
  obtain ⟨hp, hr⟩ := gate_terminal_drained hpos s hterm
  exact ⟨hp, hr, gate_terminal_finished hpos hs hterm⟩

theorem gate_bounded_no_starvation_witness :
    (initGate [2, 0]).running.length ≤ 1 :=
  (gate_bounded_no_starvation 1 [2, 0] (by decide)).1 _ Relation.ReflTransGen.refl

theorem flatten_evaluatorEvents_countP_zero {testId : String} {tc : TestCase}
    {h output : String} {p : Event → Bool} (evaluators : List Evaluator)
    (hz : ∀ e ∈ evaluators, (evaluatorEvent testId tc h output e).countP p = 0) :
    ((evaluators.map (evaluatorEvent testId tc h output)).flatten).countP p
      = 0 := by
  rw [List.countP_flatten, List.map_map]
  apply List.sum_eq_zero
  intro a ha
  obtain ⟨e, he, rfl⟩ := List.mem_map.mp ha
  exact hz e he

theorem evaluatorEvent_countP_results_zero {testId : String} {tc : TestCase}
    {h output : String} {e : Evaluator} {h' : String} :
    (evaluatorEvent testId tc h output e).countP (Event.isResultsFor h') = 0 := by
  unfold evaluatorEvent
  cases he : e.evaluate tc output with
  | error err => simp [sendError, Event.isResultsFor]
  | ok o => cases o <;> simp [Event.isResultsFor]

theorem evaluatorEvent_countP_eqResults_zero {testId : String} {tc : TestCase}
    {h output : String} {e : Evaluator} {a b : String}
    {c : List (String × String)} {d : String} :
    (evaluatorEvent testId tc h output e).countP
      (fun ev => ev == Event.results a b c d) = 0 := by
  unfold evaluatorEvent
  cases he : e.evaluate tc output with
  | error err => simp [sendError]
  | ok o => cases o <;> simp

/-- A concrete test case, hash method, error and functions under test used by
the witness and counterexample scenarios. -/
def tcA : TestCase := ⟨[("input", "x"), ("batch_idx", "0")]⟩

def hashA : TestCase → String := fun _ => "h"

def errBoom : PyErr := ⟨"ValueError", "boom", "tb"⟩

def fnErrA : TestCase → Except PyErr (Option String) := fun _ => .error errBoom

def fnNoneA : TestCase → Except PyErr (Option String) := fun _ => .ok none

def fnOutA : TestCase → Except PyErr (Option String) := fun _ => .ok (some "out")

/-- **C2**: for every test case whose function-under-test invocation throws
(in a run with valid limits, a reliable collector and injective hashes), no
`/results` and no `/evals` event is ever reported for it, exactly one
`/errors` event is reported for it — and that event's payload omits
`evaluatorExternalId` — while the run still completes (`/end` is reported and
the caller's call returns normally). -/
theorem fn_throw_error_containment {hashOf : TestCase → String}
    {testId : String} {tcs : List TestCase} {evaluators : List Evaluator}
    {fn : TestCase → Except PyErr (Option String)} {maxTC maxEval : Int}
    {tr : List Event} {i : Nat} {err : PyErr}
    (h1 : 1 ≤ maxTC) (h2 : 1 ≤ maxEval)
    (hnd : (tcs.map hashOf).Nodup) (hi : i < tcs.length)
    (hfn : fn (tcs.get ⟨i, hi⟩) = .error err)
    (htr : RunTraces noFail hashOf testId tcs evaluators fn maxTC maxEval tr) :
    tr.countP (Event.isResultsFor (hashOf (tcs.get ⟨i, hi⟩))) = 0 ∧
    tr.countP (Event.isEvalsFor (hashOf (tcs.get ⟨i, hi⟩))) = 0 ∧
    tr.countP (Event.isErrorsFor (hashOf (tcs.get ⟨i, hi⟩))) = 1 ∧
    tr.countP (Event.isErrorsOf (hashOf (tcs.get ⟨i, hi⟩)) none) = 1 ∧
    tr.countP Event.isEndEv = 1 ∧
    (runTest noFail hashOf testId tcs evaluators fn maxTC maxEval).outcome
      = .completes := by
  have hspec : caseEventsSpec hashOf testId (tcs.get ⟨i, hi⟩) evaluators fn =
      [sendError testId (hashOf (tcs.get ⟨i, hi⟩)) none err] := by
    unfold caseEventsSpec
    rw [hfn]
  refine ⟨?_, ?_, ?_, ?_, runTraces_countP_end h1 h2 htr, ?_⟩
  · rw [runTraces_countP_hashBound h1 h2 htr _ hi
      (fun _ hp => isResultsFor_hash hp) hnd, hspec]
    simp [sendError, Event.isResultsFor]
  · rw [runTraces_countP_hashBound h1 h2 htr _ hi
      (fun _ hp => isEvalsFor_hash hp) hnd, hspec]
    simp [sendError, Event.isEvalsFor]
  · rw [runTraces_countP_hashBound h1 h2 htr _ hi
      (fun _ hp => isErrorsFor_hash hp) hnd, hspec]
    simp [sendError, Event.isErrorsFor]
  · rw [runTraces_countP_hashBound h1 h2 htr _ hi
      (fun _ hp => isErrorsOf_hash hp) hnd, hspec]
    simp [sendError, Event.isErrorsOf]
  · obtain ⟨st', heq, _⟩ :=
      @runTest_noFail hashOf testId tcs evaluators fn maxTC maxEval h1 h2
    rw [heq]

theorem fn_throw_error_containment_witness :
    ([Event.start "t", Event.errors "t" "h" none errBoom, Event.endRun "t"]
        : List Event).countP (Event.isResultsFor "h") = 0 ∧
    ([Event.start "t", Event.errors "t" "h" none errBoom, Event.endRun "t"]
        : List Event).countP (Event.isEvalsFor "h") = 0 ∧
    ([Event.start "t", Event.errors "t" "h" none errBoom, Event.endRun "t"]
        : List Event).countP (Event.isErrorsFor "h") = 1 ∧
    ([Event.start "t", Event.errors "t" "h" none errBoom, Event.endRun "t"]
        : List Event).countP (Event.isErrorsOf "h" none) = 1 ∧
    ([Event.start "t", Event.errors "t" "h" none errBoom, Event.endRun "t"]
        : List Event).countP Event.isEndEv = 1 ∧
    (runTest noFail hashA "t" [tcA] [] fnErrA 1 1).outcome = .completes :=
  @fn_throw_error_containment hashA "t" [tcA] [] fnErrA 1 1
    [Event.start "t", Event.errors "t" "h" none errBoom, Event.endRun "t"]
    0 errBoom (by decide) (by decide) (by decide) (by decide) rfl
    ⟨[Event.errors "t" "h" none errBoom], interleaveN_flatten _, rfl⟩

/-- **C9**: for every test case whose function-under-test completes normally
but returns `None` (in a run with valid limits, a reliable collector and
injective hashes), the engine skips the test case entirely — no `/results`,
`/evals` or `/errors` event mentions it — and the run still completes
normally. -/
theorem none_output_silently_skipped {hashOf : TestCase → String}
    {testId : String} {tcs : List TestCase} {evaluators : List Evaluator}
    {fn : TestCase → Except PyErr (Option String)} {maxTC maxEval : Int}
    {tr : List Event} {i : Nat}
    (h1 : 1 ≤ maxTC) (h2 : 1 ≤ maxEval)
    (hnd : (tcs.map hashOf).Nodup) (hi : i < tcs.length)
    (hfn : fn (tcs.get ⟨i, hi⟩) = .ok none)
    (htr : RunTraces noFail hashOf testId tcs evaluators fn maxTC maxEval tr) :
    tr.countP (Event.mentions (hashOf (tcs.get ⟨i, hi⟩))) = 0 ∧
    tr.countP Event.isEndEv = 1 ∧
    (runTest noFail hashOf testId tcs evaluators fn maxTC maxEval).outcome
      = .completes := by
  have hspec : caseEventsSpec hashOf testId (tcs.get ⟨i, hi⟩) evaluators fn
      = [] := by
    unfold caseEventsSpec
    rw [hfn]
  refine ⟨?_, runTraces_countP_end h1 h2 htr, ?_⟩
  · rw [runTraces_countP_hashBound h1 h2 htr _ hi
      (fun _ hp => mentions_hash hp) hnd, hspec]
    rfl
  · obtain ⟨st', heq, _⟩ :=
      @runTest_noFail hashOf testId tcs evaluators fn maxTC maxEval h1 h2
    rw [heq]

theorem none_output_silently_skipped_witness :
    ([Event.start "t", Event.endRun "t"] : List Event).countP
        (Event.mentions "h") = 0 ∧
    ([Event.start "t", Event.endRun "t"] : List Event).countP
        Event.isEndEv = 1 ∧
    (runTest noFail hashA "t" [tcA] [] fnNoneA 1 1).outcome = .completes :=
  @none_output_silently_skipped hashA "t" [tcA] [] fnNoneA 1 1
    [Event.start "t", Event.endRun "t"] 0
    (by decide) (by decide) (by decide) (by decide) rfl
    ⟨[], interleaveN_flatten _, rfl⟩

/-- **C10**: for every successful test case (in a run with valid limits, a
reliable collector and injective hashes), exactly one `/results` event is
reported for it, and its `testCaseBody` is exactly the test case's field
record with the `batch_idx` entry removed and every other field forwarded
unchanged, with the output forwarded as produced. -/
theorem results_body_drops_batch_idx {hashOf : TestCase → String}
    {testId : String} {tcs : List TestCase} {evaluators : List Evaluator}
    {fn : TestCase → Except PyErr (Option String)} {maxTC maxEval : Int}
    {tr : List Event} {i : Nat} {output : String}
    (h1 : 1 ≤ maxTC) (h2 : 1 ≤ maxEval)
    (hnd : (tcs.map hashOf).Nodup) (hi : i < tcs.length)
    (hfn : fn (tcs.get ⟨i, hi⟩) = .ok (some output))
    (htr : RunTraces noFail hashOf testId tcs evaluators fn maxTC maxEval tr) :
    tr.countP (Event.isResultsFor (hashOf (tcs.get ⟨i, hi⟩))) = 1 ∧
    tr.countP (fun ev => ev == Event.results testId
      (hashOf (tcs.get ⟨i, hi⟩))
      ((tcs.get ⟨i, hi⟩).fields.filter fun q => q.1 != "batch_idx")
      output) = 1 := by
  have hspec : caseEventsSpec hashOf testId (tcs.get ⟨i, hi⟩) evaluators fn =
      Event.results testId (hashOf (tcs.get ⟨i, hi⟩))
          ((tcs.get ⟨i, hi⟩).fields.filter fun q => q.1 != "batch_idx") output
        :: (evaluators.map (evaluatorEvent testId (tcs.get ⟨i, hi⟩)
            (hashOf (tcs.get ⟨i, hi⟩)) output)).flatten := by
    unfold caseEventsSpec
    rw [hfn]
  constructor
  · rw [runTraces_countP_hashBound h1 h2 htr _ hi
      (fun _ hp => isResultsFor_hash hp) hnd, hspec]
    rw [List.countP_cons,
      flatten_evaluatorEvents_countP_zero evaluators
        (fun e _ => evaluatorEvent_countP_results_zero)]
    simp [Event.isResultsFor]
  · rw [runTraces_countP_hashBound h1 h2 htr _ hi
      (fun ev hp => by
        have : ev = Event.results testId (hashOf (tcs.get ⟨i, hi⟩))
            ((tcs.get ⟨i, hi⟩).fields.filter fun q => q.1 != "batch_idx")
            output := by simpa using hp
        subst this
        rfl) hnd, hspec]
    rw [List.countP_cons,
      flatten_evaluatorEvents_countP_zero evaluators
        (fun e _ => evaluatorEvent_countP_eqResults_zero)]
    simp

theorem results_body_drops_batch_idx_witness :
    ([Event.start "t", Event.results "t" "h" [("input", "x")] "out",
        Event.endRun "t"] : List Event).countP (Event.isResultsFor "h") = 1 ∧
    ([Event.start "t", Event.results "t" "h" [("input", "x")] "out",
        Event.endRun "t"] : List Event).countP
      (fun ev => ev == Event.results "t" "h"
        (tcA.fields.filter fun q => q.1 != "batch_idx") "out") = 1 :=
  @results_body_drops_batch_idx hashA "t" [tcA] [] fnOutA 1 1
    [Event.start "t", Event.results "t" "h" [("input", "x")] "out",
      Event.endRun "t"] 0 "out"
    (by decide) (by decide) (by decide) (by decide) rfl
    ⟨[Event.results "t" "h" [("input", "x")] "out"], interleaveN_flatten _, rfl⟩

theorem flatten_evaluatorEvents_countP_eq {testId : String} {tc : TestCase}
    {h output : String} {p : Event → Bool} (evaluators : List Evaluator)
    (k : Nat) (hk : k < evaluators.length)
    (h0 : ∀ j, (hj : j < evaluators.length) → j ≠ k →
      (evaluatorEvent testId tc h output (evaluators.get ⟨j, hj⟩)).countP p = 0) :
    ((evaluators.map (evaluatorEvent testId tc h output)).flatten).countP p =
      (evaluatorEvent testId tc h output (evaluators.get ⟨k, hk⟩)).countP p := by
  rw [List.countP_flatten, List.map_map]
  exact sum_map_single evaluators
    (fun e => (evaluatorEvent testId tc h output e).countP p) k hk h0

theorem mem_unique_id {evaluators : List Evaluator}
    (hndid : (evaluators.map Evaluator.id).Nodup) {k : Nat}
    (hk : k < evaluators.length) {e : Evaluator} (he : e ∈ evaluators)
    (hid : e.id = (evaluators.get ⟨k, hk⟩).id) :
    e = evaluators.get ⟨k, hk⟩ := by
  obtain ⟨⟨j, hj⟩, rfl⟩ := List.mem_iff_get.mp he
  by_cases hjk : j = k
  · subst hjk
    rfl
  · exact absurd hid (nodup_map_get_ne hndid hj hk hjk)

theorem evaluatorEvent_countP_evalsOf_zero {testId : String} {tc : TestCase}
    {h output : String} {e : Evaluator} {eid : String}
    (hne : e.id ≠ eid) :
    (evaluatorEvent testId tc h output e).countP (Event.isEvalsOf h eid) = 0 := by
  unfold evaluatorEvent
  cases he : e.evaluate tc output with
  | error err => simp [sendError, Event.isEvalsOf]
  | ok o =>
      cases o with
      | none => simp
      | some ev => simp [Event.isEvalsOf, hne]

theorem evaluatorEvent_countP_errorsOfSome_zero {testId : String}
    {tc : TestCase} {h output : String} {e : Evaluator} {eid : String}
    (hne : e.id ≠ eid) :
    (evaluatorEvent testId tc h output e).countP
      (Event.isErrorsOf h (some eid)) = 0 := by
  unfold evaluatorEvent
  cases he : e.evaluate tc output with
  | error err =>
      by_cases hso : e.id = ""
      · simp [sendError, Event.isErrorsOf, hso]
      · simp [sendError, Event.isErrorsOf, hso, hne]
  | ok o =>
      cases o with
      | none => simp
      | some ev => simp [Event.isErrorsOf]

/-- **C8**: for every evaluator invocation that returns `None` (no verdict)
instead of an `Evaluation` — in a run with valid limits, a reliable
collector, injective hashes and distinct evaluator ids — the result is
silently dropped: no `/evals` event and no `/errors` event is reported for
that evaluator on that test case. -/
theorem absent_verdict_silently_dropped {hashOf : TestCase → String}
    {testId : String} {tcs : List TestCase} {evaluators : List Evaluator}
    {fn : TestCase → Except PyErr (Option String)} {maxTC maxEval : Int}
    {tr : List Event} {i k : Nat} {output : String}
    (h1 : 1 ≤ maxTC) (h2 : 1 ≤ maxEval)
    (hnd : (tcs.map hashOf).Nodup)
    (hndid : (evaluators.map Evaluator.id).Nodup)
    (hi : i < tcs.length) (hk : k < evaluators.length)
    (hfn : fn (tcs.get ⟨i, hi⟩) = .ok (some output))
    (hevk : (evaluators.get ⟨k, hk⟩).evaluate (tcs.get ⟨i, hi⟩) output
      = .ok none)
    (htr : RunTraces noFail hashOf testId tcs evaluators fn maxTC maxEval tr) :
    tr.countP (Event.isEvalsOf (hashOf (tcs.get ⟨i, hi⟩))
      (evaluators.get ⟨k, hk⟩).id) = 0 ∧
    tr.countP (Event.isErrorsOf (hashOf (tcs.get ⟨i, hi⟩))
      (some (evaluators.get ⟨k, hk⟩).id)) = 0 := by
  have hspec : caseEventsSpec hashOf testId (tcs.get ⟨i, hi⟩) evaluators fn =
      Event.results testId (hashOf (tcs.get ⟨i, hi⟩))
          ((tcs.get ⟨i, hi⟩).fields.filter fun q => q.1 != "batch_idx") output
        :: (evaluators.map (evaluatorEvent testId (tcs.get ⟨i, hi⟩)
            (hashOf (tcs.get ⟨i, hi⟩)) output)).flatten := by
    unfold caseEventsSpec
    rw [hfn]
  have hz : ∀ q : Event → Bool,
      (∀ e ∈ evaluators, e.id ≠ (evaluators.get ⟨k, hk⟩).id →
        (evaluatorEvent testId (tcs.get ⟨i, hi⟩)
          (hashOf (tcs.get ⟨i, hi⟩)) output e).countP q = 0) →
      (∀ e ∈ evaluators,
        (evaluatorEvent testId (tcs.get ⟨i, hi⟩)
          (hashOf (tcs.get ⟨i, hi⟩)) output e).countP q = 0) := by
    intro q hq e he
    by_cases hid : e.id = (evaluators.get ⟨k, hk⟩).id
    · rw [mem_unique_id hndid hk he hid]
      unfold evaluatorEvent
      rw [hevk]
      rfl
    · exact hq e he hid
  constructor
  · rw [runTraces_countP_hashBound h1 h2 htr _ hi
      (fun _ hp => isEvalsOf_hash hp) hnd, hspec, List.countP_cons,
      flatten_evaluatorEvents_countP_zero evaluators
        (hz _ (fun e _ hid => evaluatorEvent_countP_evalsOf_zero hid))]
    simp [Event.isEvalsOf]
  · rw [runTraces_countP_hashBound h1 h2 htr _ hi
      (fun _ hp => isErrorsOf_hash hp) hnd, hspec, List.countP_cons,
      flatten_evaluatorEvents_countP_zero evaluators
        (hz _ (fun e _ hid => evaluatorEvent_countP_errorsOfSome_zero hid))]
    simp [Event.isErrorsOf]

def evalNoneA : Evaluator := ⟨"e1", fun _ _ => .ok none⟩

theorem absent_verdict_silently_dropped_witness :
    ([Event.start "t", Event.results "t" "h" [("input", "x")] "out",
        Event.endRun "t"] : List Event).countP
      (Event.isEvalsOf "h" "e1") = 0 ∧
    ([Event.start "t", Event.results "t" "h" [("input", "x")] "out",
        Event.endRun "t"] : List Event).countP
      (Event.isErrorsOf "h" (some "e1")) = 0 :=
  @absent_verdict_silently_dropped hashA "t" [tcA] [evalNoneA] fnOutA 1 1
    [Event.start "t", Event.results "t" "h" [("input", "x")] "out",
      Event.endRun "t"] 0 0 "out"
    (by decide) (by decide) (by decide) (by decide) (by decide) (by decide)
    rfl rfl
    ⟨[Event.results "t" "h" [("input", "x")] "out"], interleaveN_flatten _, rfl⟩

/-- An evaluator whose id is the empty string and whose `evaluate` throws:
`send_error`'s truthiness test (`if evaluator_id:`) then drops the
`evaluatorExternalId` field from the `/errors` payload. -/
def evalEmptyIdThrows : Evaluator := ⟨"", fun _ _ => .error errBoom⟩

/-- **C3, counterexample**: a concrete run (one test case, one evaluator with
id `""` that throws while every other evaluator — there are none — succeeds)
in which the single `/errors` event reported for the test case does *not*
carry the evaluator's id in `evaluatorExternalId`: the payload omits the
field, so the claim "exactly one `/errors` event ... names that evaluator's
id in `evaluatorExternalId`" fails at this input. -/
theorem evaluator_throw_empty_id_counterexample :
    RunTraces noFail hashA "t" [tcA] [evalEmptyIdThrows] fnOutA 1 1
      [Event.start "t", Event.results "t" "h" [("input", "x")] "out",
       Event.errors "t" "h" none errBoom, Event.endRun "t"] ∧
    ([Event.start "t", Event.results "t" "h" [("input", "x")] "out",
        Event.errors "t" "h" none errBoom, Event.endRun "t"]
        : List Event).countP (Event.isErrorsOf "h" (some "")) = 0 ∧
    ([Event.start "t", Event.results "t" "h" [("input", "x")] "out",
        Event.errors "t" "h" none errBoom, Event.endRun "t"]
        : List Event).countP (Event.isErrorsFor "h") = 1 :=
  ⟨⟨[Event.results "t" "h" [("input", "x")] "out",
      Event.errors "t" "h" none errBoom], interleaveN_flatten _, rfl⟩,
    by decide, by decide⟩

/-- **C3, amended**: for every test case (in a run with valid limits, a
reliable collector, injective hashes and distinct evaluator ids), if one
evaluator — *whose id is non-empty* — throws while every other evaluator
succeeds with a verdict, then exactly one `/errors` event is reported for the
test case, that event names the throwing evaluator's id in
`evaluatorExternalId`, no `/evals` event is reported for that evaluator, and
every other evaluator's `/evals` event is still reported (exactly once
each).  (As stated the claim fails when the throwing evaluator's id is the
empty string: `send_error` then omits `evaluatorExternalId`.) -/
theorem evaluator_throw_error_reporting {hashOf : TestCase → String}
    {testId : String} {tcs : List TestCase} {evaluators : List Evaluator}
    {fn : TestCase → Except PyErr (Option String)} {maxTC maxEval : Int}
    {tr : List Event} {i k : Nat} {output : String} {err : PyErr}
    (h1 : 1 ≤ maxTC) (h2 : 1 ≤ maxEval)
    (hnd : (tcs.map hashOf).Nodup)
    (hndid : (evaluators.map Evaluator.id).Nodup)
    (hi : i < tcs.length) (hk : k < evaluators.length)
    (hfn : fn (tcs.get ⟨i, hi⟩) = .ok (some output))
    (hevk : (evaluators.get ⟨k, hk⟩).evaluate (tcs.get ⟨i, hi⟩) output
      = .error err)
    (hothers : ∀ j, (hj : j < evaluators.length) → j ≠ k →
      ∃ ev, (evaluators.get ⟨j, hj⟩).evaluate (tcs.get ⟨i, hi⟩) output
        = .ok (some ev))
    (hidne : (evaluators.get ⟨k, hk⟩).id ≠ "")
    (htr : RunTraces noFail hashOf testId tcs evaluators fn maxTC maxEval tr) :
    tr.countP (Event.isErrorsOf (hashOf (tcs.get ⟨i, hi⟩))
      (some (evaluators.get ⟨k, hk⟩).id)) = 1 ∧
    tr.countP (Event.isErrorsFor (hashOf (tcs.get ⟨i, hi⟩))) = 1 ∧
    tr.countP (Event.isEvalsOf (hashOf (tcs.get ⟨i, hi⟩))
      (evaluators.get ⟨k, hk⟩).id) = 0 ∧
    ∀ j, (hj : j < evaluators.length) → j ≠ k →
      tr.countP (Event.isEvalsOf (hashOf (tcs.get ⟨i, hi⟩))
        (evaluators.get ⟨j, hj⟩).id) = 1 := by
  have hspec : caseEventsSpec hashOf testId (tcs.get ⟨i, hi⟩) evaluators fn =
      Event.results testId (hashOf (tcs.get ⟨i, hi⟩))
          ((tcs.get ⟨i, hi⟩).fields.filter fun q => q.1 != "batch_idx") output
        :: (evaluators.map (evaluatorEvent testId (tcs.get ⟨i, hi⟩)
            (hashOf (tcs.get ⟨i, hi⟩)) output)).flatten := by
    unfold caseEventsSpec
    rw [hfn]
  refine ⟨?_, ?_, ?_, ?_⟩
  · rw [runTraces_countP_hashBound h1 h2 htr _ hi
      (fun _ hp => isErrorsOf_hash hp) hnd, hspec, List.countP_cons,
      flatten_evaluatorEvents_countP_eq evaluators k hk (fun j hj hjk => by
        obtain ⟨ev, hev⟩ := hothers j hj hjk
        unfold evaluatorEvent
        rw [hev]
        simp [Event.isErrorsOf])]
    unfold evaluatorEvent
    rw [hevk]
    have hidne2 : evaluators[k].id ≠ "" := hidne
    simp [sendError, Event.isErrorsOf, hidne2]
  · rw [runTraces_countP_hashBound h1 h2 htr _ hi
      (fun _ hp => isErrorsFor_hash hp) hnd, hspec, List.countP_cons,
      flatten_evaluatorEvents_countP_eq evaluators k hk (fun j hj hjk => by
        obtain ⟨ev, hev⟩ := hothers j hj hjk
        unfold evaluatorEvent
        rw [hev]
        simp [Event.isErrorsFor])]
    unfold evaluatorEvent
    rw [hevk]
    simp [sendError, Event.isErrorsFor]
  · rw [runTraces_countP_hashBound h1 h2 htr _ hi
      (fun _ hp => isEvalsOf_hash hp) hnd, hspec, List.countP_cons,
      flatten_evaluatorEvents_countP_zero evaluators (fun e he => by
        by_cases hid : e.id = (evaluators.get ⟨k, hk⟩).id
        · rw [mem_unique_id hndid hk he hid]
          unfold evaluatorEvent
          rw [hevk]
          simp [sendError, Event.isEvalsOf]
        · exact evaluatorEvent_countP_evalsOf_zero hid)]
    simp [Event.isEvalsOf]
  · intro j hj hjk
    rw [runTraces_countP_hashBound h1 h2 htr _ hi
      (fun _ hp => isEvalsOf_hash hp) hnd, hspec, List.countP_cons,
      flatten_evaluatorEvents_countP_eq evaluators j hj (fun m hm hmj =>
        evaluatorEvent_countP_evalsOf_zero
          (nodup_map_get_ne hndid hm hj hmj))]
    obtain ⟨ev, hev⟩ := hothers j hj hjk
    unfold evaluatorEvent
    rw [hev]
    simp [Event.isEvalsOf]

def evalThrowsB : Evaluator := ⟨"bad", fun _ _ => .error errBoom⟩

def evalOkB : Evaluator := ⟨"good", fun _ _ => .ok (some ⟨1, none⟩)⟩

theorem evaluator_throw_error_reporting_witness :
    ([Event.start "t", Event.results "t" "h" [("input", "x")] "out",
        Event.errors "t" "h" (some "bad") errBoom,
        Event.evals "t" "good" "h" 1 none, Event.endRun "t"]
        : List Event).countP (Event.isErrorsOf "h" (some "bad")) = 1 ∧
    ([Event.start "t", Event.results "t" "h" [("input", "x")] "out",
        Event.errors "t" "h" (some "bad") errBoom,
        Event.evals "t" "good" "h" 1 none, Event.endRun "t"]
        : List Event).countP (Event.isErrorsFor "h") = 1 ∧
    ([Event.start "t", Event.results "t" "h" [("input", "x")] "out",
        Event.errors "t" "h" (some "bad") errBoom,
        Event.evals "t" "good" "h" 1 none, Event.endRun "t"]
        : List Event).countP (Event.isEvalsOf "h" "bad") = 0 ∧
    ∀ j, (hj : j < ([evalThrowsB, evalOkB] : List Evaluator).length) → j ≠ 0 →
      ([Event.start "t", Event.results "t" "h" [("input", "x")] "out",
          Event.errors "t" "h" (some "bad") errBoom,
          Event.evals "t" "good" "h" 1 none, Event.endRun "t"]
          : List Event).countP (Event.isEvalsOf "h"
        (([evalThrowsB, evalOkB] : List Evaluator).get ⟨j, hj⟩).id) = 1 :=
  @evaluator_throw_error_reporting hashA "t" [tcA] [evalThrowsB, evalOkB]
    fnOutA 1 1
    [Event.start "t", Event.results "t" "h" [("input", "x")] "out",
      Event.errors "t" "h" (some "bad") errBoom,
      Event.evals "t" "good" "h" 1 none, Event.endRun "t"]
    0 0 "out" errBoom
    (by decide) (by decide) (by decide) (by decide) (by decide) (by decide)
    rfl rfl
    (by
      intro j hj hjk
      have hj2 : j < 2 := by simpa using hj
      interval_cases j
      · exact absurd rfl hjk
      · exact ⟨⟨1, none⟩, rfl⟩)
    (by decide)
    ⟨[Event.results "t" "h" [("input", "x")] "out",
      Event.errors "t" "h" (some "bad") errBoom,
      Event.evals "t" "good" "h" 1 none], interleaveN_flatten _, rfl⟩

/-- **C6**: the content-derived hash is deterministic (it is a pure function
of the test case's content, so equal content always yields the same string),
and over a whole run (valid limits, reliable collector) the user `hash()`
method is invoked at most once per test case — every `/results`, `/evals`
and `/errors` event of a test case carries that one cached value rather than
a per-evaluator recomputation. -/
theorem cached_hash_once_and_reused {hashOf : TestCase → String}
    {testId : String} {tcs : List TestCase} {evaluators : List Evaluator}
    {fn : TestCase → Except PyErr (Option String)} {maxTC maxEval : Int}
    (h1 : 1 ≤ maxTC) (h2 : 1 ≤ maxEval) :
    (∀ tc1 tc2 : TestCase, tc1 = tc2 → hashOf tc1 = hashOf tc2) ∧
    (∀ j, (runTest noFail hashOf testId tcs evaluators fn
      maxTC maxEval).st.hashCalls j ≤ 1) ∧
    (∀ i, (hi : i < tcs.length) → ∀ ct,
      (runTest noFail hashOf testId tcs evaluators fn
        maxTC maxEval).caseTraces[i]? = some ct →
      ∀ ev ∈ ct, ev.caseHash? = some (hashOf (tcs.get ⟨i, hi⟩))) := by
  obtain ⟨st', heq, hcalls⟩ :=
    @runTest_noFail hashOf testId tcs evaluators fn maxTC maxEval h1 h2
  refine ⟨fun tc1 tc2 h => by rw [h], ?_, ?_⟩
  · intro j
    rw [heq]
    exact hcalls j
  · intro i hi ct hct ev hev
    rw [heq] at hct
    simp only [List.getElem?_map
      (fun tc => caseEventsSpec hashOf testId tc evaluators fn) tcs i,
      List.getElem?_eq_getElem hi, Option.map_some] at hct
    rw [← Option.some_inj.mp hct] at hev
    have := caseEventsSpec_hash ev hev
    simpa [List.get_eq_getElem] using this

theorem cached_hash_once_and_reused_witness :
    (runTest noFail hashA "t" [tcA] [evalNoneA] fnOutA 1 1).st.hashCalls 0
      ≤ 1 :=
  (@cached_hash_once_and_reused hashA "t" [tcA] [evalNoneA] fnOutA 1 1
    (by decide) (by decide)).2.1 0

theorem runTestCase_outcome_ne_hung {post : PostBehavior}
    {hashOf : TestCase → String} {testId : String} {tc : TestCase} {i : Nat}
    {evaluators : List Evaluator}
    {fn : TestCase → Except PyErr (Option String)} {maxEval : Int}
    {st : EngineState} (hEv : 1 ≤ maxEval) :
    (runTestCase post hashOf testId tc i evaluators fn maxEval st).2.2
      ≠ .hung := by
  unfold runTestCase
  split
  · dsimp only
    split <;> simp
  · simp
  · dsimp only
    repeat' split
    all_goals try simp
    all_goals (rename_i hcond; exact absurd hcond.1 (by omega))

theorem runCases_not_hung {post : PostBehavior} {hashOf : TestCase → String}
    {testId : String} {evaluators : List Evaluator}
    {fn : TestCase → Except PyErr (Option String)} {maxEval : Int}
    (hEv : 1 ≤ maxEval) :
    ∀ (tcs : List TestCase) (k : Nat) (st : EngineState),
      (runCases post hashOf testId evaluators fn maxEval tcs k st).2.2
        = false ∧
      (runCases post hashOf testId evaluators fn maxEval tcs k st).1.length
        = tcs.length := by
  intro tcs
  induction tcs with
  | nil => intro k st; exact ⟨rfl, rfl⟩
  | cons tc rest ih =>
      intro k st
      have hne := @runTestCase_outcome_ne_hung post hashOf testId tc k
        evaluators fn maxEval st hEv
      obtain ⟨ih1, ih2⟩ := ih (k + 1)
        (runTestCase post hashOf testId tc k evaluators fn maxEval st).2.1
      constructor
      · simp only [runCases, ih1, Bool.or_false]
        cases hout : (runTestCase post hashOf testId tc k evaluators fn
            maxEval st).2.2 with
        | hung => exact absurd hout hne
        | done => rfl
        | raised e => rfl
      · simp only [runCases, List.length_cons, ih2]

/-- **C4, counterexample**: two runs against a collector that rejects one
lifecycle POST each.  When the `/start` POST fails, `run_test` does not catch
the exception, `future.result()` re-raises it in the caller — the telemetry
failure *is* escalated to the caller of the public entry point (default
limits 10 and 5), the blocking call does not return normally, and the run is
aborted before any test case.  When the `/end` POST fails, the run first
drains every test case normally, and then the same escalation happens: the
caller's blocking call raises instead of returning normally. -/
theorem telemetry_start_failure_counterexample :
    ((runTest (fun ev => if ev.isStartEv then
        some ⟨"ConnectError", "connection refused", ""⟩ else none)
      hashA "t" [tcA] [] fnOutA 10 5).outcome =
        .raises ⟨"ConnectError", "connection refused", ""⟩ ∧
    (runTest (fun ev => if ev.isStartEv then
        some ⟨"ConnectError", "connection refused", ""⟩ else none)
      hashA "t" [tcA] [] fnOutA 10 5).outcome ≠ .completes ∧
    (runTest (fun ev => if ev.isStartEv then
        some ⟨"ConnectError", "connection refused", ""⟩ else none)
      hashA "t" [tcA] [] fnOutA 10 5).caseTraces = []) ∧
    ((runTest (fun ev => if ev.isEndEv then
        some ⟨"ConnectError", "connection refused", ""⟩ else none)
      hashA "t" [tcA] [] fnOutA 10 5).outcome =
        .raises ⟨"ConnectError", "connection refused", ""⟩ ∧
    (runTest (fun ev => if ev.isEndEv then
        some ⟨"ConnectError", "connection refused", ""⟩ else none)
      hashA "t" [tcA] [] fnOutA 10 5).outcome ≠ .completes ∧
    (runTest (fun ev => if ev.isEndEv then
        some ⟨"ConnectError", "connection refused", ""⟩ else none)
      hashA "t" [tcA] [] fnOutA 10 5).caseTraces =
        [[Event.results "t" "h" [("input", "x")] "out"]] ∧
    (runTest (fun ev => if ev.isEndEv then
        some ⟨"ConnectError", "connection refused", ""⟩ else none)
      hashA "t" [tcA] [] fnOutA 10 5).postEvents = [Event.endRun "t"]) := by
  refine ⟨⟨rfl, ?_, rfl⟩, rfl, ?_, rfl, rfl⟩ <;>
    · intro h
      have h2 : RunOutcome.raises ⟨"ConnectError", "connection refused", ""⟩
          = RunOutcome.completes := by
        rw [← h]
        rfl
      exact RunOutcome.noConfusion h2

/-- **C4, amended**: a failed `/results`, `/evals` or `/errors` POST is not
retried and is not escalated to the caller of the public run entry point —
whatever posts fail mid-run (with valid limits), as long as the `/start` and
`/end` posts themselves succeed, the run drains every test-case unit, `/end`
is still posted and the caller's blocking call returns normally (a failed
`/results` POST does suppress that one test case's evaluators: the case's
attempts stop at the single `/results` attempt and the unit ends as a raised
unit that the surrounding gather swallows).  A failed `/start` or `/end`
POST, by contrast, is escalated: the exception propagates out of `run_test`
and `future.result()` re-raises it in the caller — before any test case runs
for `/start`, after the full fan-out has drained (with `/end` attempted
exactly once, never retried) for `/end`. -/
theorem telemetry_failures_contained {post : PostBehavior}
    {hashOf : TestCase → String} {testId : String} {tcs : List TestCase}
    {evaluators : List Evaluator}
    {fn : TestCase → Except PyErr (Option String)} {maxTC maxEval : Int}
    (h1 : 1 ≤ maxTC) (h2 : 1 ≤ maxEval) :
    ((post (Event.start testId) = none ∧ post (Event.endRun testId) = none) →
      (runTest post hashOf testId tcs evaluators fn maxTC maxEval).outcome
        = .completes ∧
      (runTest post hashOf testId tcs evaluators fn maxTC maxEval).postEvents
        = [Event.endRun testId] ∧
      (runTest post hashOf testId tcs evaluators fn
        maxTC maxEval).caseTraces.length = tcs.length) ∧
    (∀ e, post (Event.start testId) = some e →
      (runTest post hashOf testId tcs evaluators fn maxTC maxEval).outcome
        = .raises e ∧
      (runTest post hashOf testId tcs evaluators fn maxTC maxEval).caseTraces
        = []) ∧
    (∀ e, post (Event.start testId) = none →
      post (Event.endRun testId) = some e →
      (runTest post hashOf testId tcs evaluators fn maxTC maxEval).outcome
        = .raises e ∧
      (runTest post hashOf testId tcs evaluators fn maxTC maxEval).postEvents
        = [Event.endRun testId] ∧
      (runTest post hashOf testId tcs evaluators fn
        maxTC maxEval).caseTraces.length = tcs.length) ∧
    (∀ (tc : TestCase) (i : Nat) (st : EngineState) (output : String)
        (e : PyErr),
      fn tc = .ok (some output) →
      post (Event.results testId (cachedHash hashOf tc i st).1
        (tc.fields.filter fun q => q.1 != "batch_idx") output) = some e →
      runTestCase post hashOf testId tc i evaluators fn maxEval st =
        ([Event.results testId (cachedHash hashOf tc i st).1
           (tc.fields.filter fun q => q.1 != "batch_idx") output],
         (cachedHash hashOf tc i st).2, .raised e)) := by
  have hsem : semaphoreInit maxTC = .ok () := by
    simp only [semaphoreInit, if_neg (by omega : ¬ maxTC < 0)]
  have hne : ¬ maxTC = 0 := by omega
  obtain ⟨hh, hl⟩ := @runCases_not_hung post hashOf testId evaluators fn
    maxEval h2 tcs 0 initState
  refine ⟨?_, ?_, ?_, ?_⟩
  · rintro ⟨hstart, hend⟩
    simp only [runTest, hstart, hsem, hne, false_and, if_false, hh, hend]
    simp [hl]
  · intro e hstart
    simp [runTest, hstart]
  · intro e hstart hend
    simp only [runTest, hstart, hsem, hne, false_and, if_false, hh, hend]
    simp [hl]
  · intro tc i st output e hfn hpost
    simp only [runTestCase, hfn, hpost]

theorem telemetry_failures_contained_witness :
    (runTest noFail hashA "t" [tcA] [evalNoneA] fnOutA 10 5).outcome
      = .completes ∧
    (runTest noFail hashA "t" [tcA] [evalNoneA] fnOutA 10 5).postEvents
      = [Event.endRun "t"] ∧
    (runTest noFail hashA "t" [tcA] [evalNoneA] fnOutA
      10 5).caseTraces.length = ([tcA] : List TestCase).length :=
  (@telemetry_failures_contained noFail hashA "t" [tcA] [evalNoneA] fnOutA
    10 5 (by decide) (by decide)).1 ⟨rfl, rfl⟩

theorem gateStep_zero_no_step {s s' : GateState} (h : GateStep 0 s s')
    (hr : s.running = []) : False := by
  cases h with
  | acquire u rest running finished hlt => exact absurd hlt (by omega)
  | workStep pending pre post i n finished => simp at hr
  | retire pending pre post i finished => simp at hr

/-- **C5, counterexample**: with concurrency limit `0` (which satisfies
`limit ≤ 0`) nothing fails at all — `asyncio.Semaphore(0)` is accepted — and
with limit `-1` the failure is an ordinary `ValueError` raised only *after*
`/start` has been posted, i.e. after the run has started.  So no
`ConfigurationError` is raised to the caller before any run starts: with
limit `0` the run simply hangs behind the gate that never admits a unit. -/
theorem gate_limit_counterexample :
    semaphoreInit 0 = .ok () ∧
    (runTest noFail hashA "t" [tcA] [] fnOutA 0 5).outcome = .hangs ∧
    (runTest noFail hashA "t" [tcA] [] fnOutA 0 5).preEvents
      = [Event.start "t"] ∧
    (∀ e : PyErr,
      (runTest noFail hashA "t" [tcA] [] fnOutA 0 5).outcome ≠ .raises e) ∧
    (runTest noFail hashA "t" [tcA] [] fnOutA (-1) 5).outcome =
      .raises ⟨"ValueError", "Semaphore initial value must be >= 0", ""⟩ ∧
    (runTest noFail hashA "t" [tcA] [] fnOutA (-1) 5).preEvents
      = [Event.start "t"] := by
  refine ⟨rfl, rfl, rfl, ?_, rfl, rfl⟩
  intro e h
  have h2 : RunOutcome.hangs = RunOutcome.raises e := by
    rw [← h]
    rfl
  exact RunOutcome.noConfusion h2

/-- **C5, amended**: `gather_with_max_concurrency` does not validate its
limit with a `ConfigurationError` before the run starts.  For `limit < 0`
the `asyncio.Semaphore` constructor raises a `ValueError`, which (for the
test-case gate) reaches the caller only after `/start` has been posted and
leaves `/end` unreported; for `limit = 0` no error is raised at all: the
semaphore never admits a unit — the gate makes no step from its
initial state — so a run with at least one test case hangs forever after
`/start`. -/
theorem gate_invalid_limit_behavior {hashOf : TestCase → String}
    {testId : String} {tcs : List TestCase} {evaluators : List Evaluator}
    {fn : TestCase → Except PyErr (Option String)} {maxEval : Int} :
    (∀ maxTC : Int, maxTC < 0 →
      (runTest noFail hashOf testId tcs evaluators fn maxTC maxEval).outcome =
        .raises ⟨"ValueError", "Semaphore initial value must be >= 0", ""⟩ ∧
      (runTest noFail hashOf testId tcs evaluators fn maxTC maxEval).preEvents
        = [Event.start testId] ∧
      (runTest noFail hashOf testId tcs evaluators fn maxTC maxEval).caseTraces
        = [] ∧
      (runTest noFail hashOf testId tcs evaluators fn maxTC maxEval).postEvents
        = []) ∧
    (tcs ≠ [] →
      (runTest noFail hashOf testId tcs evaluators fn 0 maxEval).outcome
        = .hangs ∧
      (runTest noFail hashOf testId tcs evaluators fn 0 maxEval).preEvents
        = [Event.start testId] ∧
      (runTest noFail hashOf testId tcs evaluators fn 0 maxEval).postEvents
        = []) ∧
    (∀ units : List Nat, ∀ s', ¬ GateStep 0 (initGate units) s') := by
  refine ⟨?_, ?_, ?_⟩
  · intro maxTC hneg
    have hsem : semaphoreInit maxTC =
        .error ⟨"ValueError", "Semaphore initial value must be >= 0", ""⟩ := by
      simp only [semaphoreInit, if_pos hneg]
    simp [runTest, noFail, hsem]
  · intro hne
    have hemp : tcs.isEmpty = false := by
      cases tcs with
      | nil => exact absurd rfl hne
      | cons a l => rfl
    have hsem : semaphoreInit 0 = .ok () := rfl
    simp [runTest, noFail, hsem, hemp]
  · intro units s' h
    exact gateStep_zero_no_step h rfl

theorem gate_invalid_limit_behavior_witness :
    (runTest noFail hashA "t" [tcA] [] fnOutA 0 5).outcome = .hangs ∧
    (runTest noFail hashA "t" [tcA] [] fnOutA 0 5).preEvents
      = [Event.start "t"] ∧
    (runTest noFail hashA "t" [tcA] [] fnOutA 0 5).postEvents = [] :=
  (@gate_invalid_limit_behavior hashA "t" [tcA] [] fnOutA 5).2.1
    (by simp)

end Autoblocks
